import Mathlib

/-!
Shallow embedding of the ranking-evaluation code of the
`music_recommendation` notebook (the only original logic of the
repository).  Real-valued quantities are modelled by exact rationals;
operations that raise a Python exception (IndexError on an empty list,
out-of-range indexing) are Option-valued.

Embedded code (from the notebook):

    for user in users:
        precision_at_k[user] = []
        recall_at_k[user] = []
        for k in range(1, 1000):
            precision = df["label"][:k].sum() / k
            recall = df["label"][:k].sum() / df["label"].sum()
            precision_at_k[user].append(precision)
            recall_at_k[user].append(recall)

    def calculate_ap(precision):
        ap = [precision[0]]
        for p in precision[1:]:
            ap.append(ap[-1] + p)
        ap = [x / (n + 1) for x, n in zip(ap, range(len(ap)))]
        return ap

    map_at_k = [sum([ap_at_k[user][k] for user in users]) / len(users)
                for k in range(num_k)]
-/

/-- One row of the prediction dataframe `df`: the rows are ordered by
descending score, and only the `user` and `label` columns are read by the
metric code. -/
structure Row where
  user : String
  label : ℚ

/-- The `label` column of the dataframe, in dataframe (descending-score)
order: `df["label"]`. -/
def dfLabels (df : List Row) : List ℚ := df.map Row.label

/-- `precision = df["label"][:k].sum() / k` — the Python slice `[:k]`
silently truncates when `k` exceeds the length, exactly as `List.take`. -/
def precision_at_k (labels : List ℚ) (k : ℕ) : ℚ :=
  (labels.take k).sum / (k : ℚ)

/-- `recall = df["label"][:k].sum() / df["label"].sum()` — the code divides
by the label sum of the whole dataframe unconditionally (no guard for a
zero denominator). -/
def recall_at_k (labels : List ℚ) (k : ℕ) : ℚ :=
  (labels.take k).sum / labels.sum

/-- The inner loop `for k in range(1, 1000)` of the notebook, building one
precision curve.  The loop body never mentions `user`: it reads the global
dataframe `df`. -/
def precision_curve (df : List Row) : List ℚ :=
  (List.range' 1 999).map (fun k => precision_at_k (dfLabels df) k)

/-- The inner loop `for k in range(1, 1000)`, building one recall curve
from the global dataframe `df`. -/
def recall_curve (df : List Row) : List ℚ :=
  (List.range' 1 999).map (fun k => recall_at_k (dfLabels df) k)

/-- The outer loop `for user in users`, producing the dictionary
`precision_at_k[user]` (modelled as an association list). -/
def precision_at_k_table (users : List String) (df : List Row) :
    List (String × List ℚ) :=
  users.map (fun u => (u, precision_curve df))

/-- The rows of the dataframe that belong to one user, projected to their
labels: the per-user ranked list the spec talks about (which the notebook
code never extracts). -/
def userLabels (df : List Row) (u : String) : List ℚ :=
  (df.filter (fun r => r.user == u)).map Row.label

/-- The running sums produced by the loop
`for p in precision[1:]: ap.append(ap[-1] + p)`, starting from a previous
sum `s`: pure characterisation used to reason about the `foldl` below. -/
def sumsFrom (s : ℚ) : List ℚ → List ℚ
  | [] => []
  | p :: ps => (s + p) :: sumsFrom (s + p) ps

/-- `calculate_ap` from the notebook.  `precision[0]` raises `IndexError`
on an empty list, hence the `none` branch; otherwise the loop appends
`ap[-1] + p` for each remaining element and the final comprehension
divides entry `n` by `n + 1`. -/
def calculate_ap : List ℚ → Option (List ℚ)
  | [] => none
  | p0 :: rest =>
    let ap := rest.foldl (fun acc p => acc ++ [acc.getLastD 0 + p]) [p0]
    some (List.zipWith (fun x (n : ℕ) => x / ((n : ℚ) + 1)) ap (List.range ap.length))

/-- `sum([ap_at_k[user][k] for user in users])`: Python list indexing
raises `IndexError` when a curve is too short, so the sum is
Option-valued. -/
def apSum (ap_at_k : String → List ℚ) (k : ℕ) : List String → Option ℚ
  | [] => some 0
  | u :: us => do
    let x ← (ap_at_k u)[k]?
    let s ← apSum ap_at_k k us
    pure (x + s)

/-- `map_at_k` entry at index `k`:
`sum([ap_at_k[user][k] for user in users]) / len(users)`. -/
def map_at_k (users : List String) (ap_at_k : String → List ℚ) (k : ℕ) :
    Option ℚ :=
  (apSum ap_at_k k users).map (fun s => s / (users.length : ℚ))

/-! ### Helper lemmas -/

theorem foldl_ap_loop (rest : List ℚ) :
    ∀ acc : List ℚ, acc ≠ [] →
      rest.foldl (fun acc p => acc ++ [acc.getLastD 0 + p]) acc =
        acc ++ sumsFrom (acc.getLastD 0) rest := by
  induction rest with
  | nil => intro acc h; simp [sumsFrom]
  | cons p ps ih =>
    intro acc h
    have hne : acc ++ [acc.getLastD 0 + p] ≠ [] := by simp
    have hlast : (acc ++ [acc.getLastD 0 + p]).getLastD 0 = acc.getLastD 0 + p := by
      simp [List.getLastD_concat]
    calc (p :: ps).foldl (fun acc p => acc ++ [acc.getLastD 0 + p]) acc
        = ps.foldl (fun acc p => acc ++ [acc.getLastD 0 + p])
            (acc ++ [acc.getLastD 0 + p]) := rfl
      _ = (acc ++ [acc.getLastD 0 + p]) ++
            sumsFrom ((acc ++ [acc.getLastD 0 + p]).getLastD 0) ps := ih _ hne
      _ = acc ++ sumsFrom (acc.getLastD 0) (p :: ps) := by
            rw [hlast, List.append_assoc]; simp [sumsFrom]

theorem sumsFrom_length (s : ℚ) (ps : List ℚ) :
    (sumsFrom s ps).length = ps.length := by
  induction ps generalizing s with
  | nil => rfl
  | cons p ps ih => simp [sumsFrom, ih]

theorem sumsFrom_get (ps : List ℚ) :
    ∀ (s : ℚ) (i : ℕ), i < ps.length →
      (sumsFrom s ps)[i]? = some (s + (ps.take (i + 1)).sum) := by
  induction ps with
  | nil => intro s i h; exact absurd h (by simp)
  | cons p ps ih =>
    intro s i h
    cases i with
    | zero => simp [sumsFrom]
    | succ i =>
      have h' : i < ps.length := by simpa using h
      have := ih (s + p) i h'
      simp [sumsFrom, this, add_assoc]

theorem calculate_ap_cons (p0 : ℚ) (rest : List ℚ) :
    calculate_ap (p0 :: rest) =
      some (List.zipWith (fun x (n : ℕ) => x / ((n : ℚ) + 1))
        (p0 :: sumsFrom p0 rest) (List.range (rest.length + 1))) := by
  have h := foldl_ap_loop rest [p0] (by simp)
  simp only [calculate_ap]
  rw [h]
  simp [sumsFrom_length]

theorem ap_entry (p0 : ℚ) (rest : List ℚ) (i : ℕ) (h : i < rest.length + 1)
    (h' : i < (p0 :: sumsFrom p0 rest).length) :
    (p0 :: sumsFrom p0 rest)[i] = ((p0 :: rest).take (i + 1)).sum := by
  cases i with
  | zero => simp
  | succ j =>
    have hj : j < rest.length := by omega
    have hs := sumsFrom_get rest p0 j hj
    have hjl : j < (sumsFrom p0 rest).length := by
      rw [sumsFrom_length]; exact hj
    rw [List.getElem?_eq_getElem hjl] at hs
    simp only [List.getElem_cons_succ]
    rw [Option.some_inj.mp hs]
    simp

theorem calculate_ap_length_aux (p0 : ℚ) (rest : List ℚ) :
    ∃ ap, calculate_ap (p0 :: rest) = some ap ∧ ap.length = rest.length + 1 := by
  refine ⟨_, calculate_ap_cons p0 rest, ?_⟩
  rw [List.length_zipWith]
  simp [sumsFrom_length]

/-! ### Claim theorems -/

/-- C1: for every non-empty precision sequence `p` and every index `k`
with `1 ≤ k ≤ length p`, the curve returned by `calculate_ap` satisfies
`output[k] = (p[1] + ... + p[k]) / k` (1-based), i.e. it is exactly the
cumulative running mean of `p`. -/
theorem calculate_ap_cumulative_mean (p : List ℚ) (k : ℕ)
    (hp : p ≠ []) (hk1 : 1 ≤ k) (hk2 : k ≤ p.length) :
    ∃ ap, calculate_ap p = some ap ∧
      ap[k - 1]? = some ((p.take k).sum / (k : ℚ)) := by
  obtain ⟨i, rfl⟩ : ∃ i, k = i + 1 := ⟨k - 1, by omega⟩
  obtain ⟨p0, rest, rfl⟩ : ∃ p0 rest, p = p0 :: rest := by
    cases p with
    | nil => exact absurd rfl hp
    | cons a l => exact ⟨a, l, rfl⟩
  refine ⟨_, calculate_ap_cons p0 rest, ?_⟩
  have hlen : i < rest.length + 1 := by
    simp only [List.length_cons] at hk2; omega
  have hz : i < (List.zipWith (fun x (n : ℕ) => x / ((n : ℚ) + 1))
      (p0 :: sumsFrom p0 rest) (List.range (rest.length + 1))).length := by
    rw [List.length_zipWith]
    simp [sumsFrom_length]; omega
  have h1 : i < (p0 :: sumsFrom p0 rest).length := by
    simp [sumsFrom_length]; omega
  rw [show i + 1 - 1 = i by omega, List.getElem?_eq_getElem hz,
    List.getElem_zipWith]
  rw [ap_entry p0 rest i hlen h1, List.getElem_range]
  push_cast
  ring_nf

/-- Witness for C1 at the spec's scenario: `p = [1.0, 0.5, 0.667]`,
`k = 3`; the exact curve is `[1, 3/4, 2167/3000]` and `2167/3000 = 0.7223…`
rounds to `0.722`. -/
theorem calculate_ap_cumulative_mean_witness :
    (([1, 1/2, 667/1000] : List ℚ) ≠ [] ∧ 1 ≤ 3 ∧
      3 ≤ ([1, 1/2, 667/1000] : List ℚ).length ∧
      ∃ ap, calculate_ap [1, 1/2, 667/1000] = some ap ∧
        ap[3 - 1]? = some ((([1, 1/2, 667/1000] : List ℚ).take 3).sum / ((3 : ℕ) : ℚ))) ∧
    calculate_ap [1, 1/2, 667/1000] = some [1, 3/4, 2167/3000] := by
  constructor
  · exact ⟨by simp, by norm_num, by simp,
      calculate_ap_cumulative_mean [1, 1/2, 667/1000] 3 (by simp) (by norm_num) (by simp)⟩
  · rw [calculate_ap_cons]
    show some (List.zipWith (fun x (n : ℕ) => x / ((n : ℚ) + 1))
      [1, 1 + 1/2, 1 + 1/2 + 667/1000] [0, 1, 2]) = some [1, 3/4, 2167/3000]
    norm_num [List.zipWith_cons_cons, List.zipWith_nil_right]

/-- C9: `calculate_ap` fails exactly on the empty input — `precision[0]`
raises `IndexError` there (modelled by `none`), and every non-empty input
succeeds, so non-emptiness is a necessary and sufficient precondition. -/
theorem calculate_ap_none_iff (p : List ℚ) :
    calculate_ap p = none ↔ p = [] := by
  cases p with
  | nil => simp [calculate_ap]
  | cons a l => simp [calculate_ap_cons]

/-- Witness for C9: the empty input indeed fails. -/
theorem calculate_ap_none_iff_witness : calculate_ap ([] : List ℚ) = none :=
  (calculate_ap_none_iff []).mpr rfl

/-- C10 counterexample: the claim quantifies over EVERY input, but on the
empty input `calculate_ap` raises (returns `none`) instead of returning a
fresh sequence of length 0. -/
theorem calculate_ap_nil_returns_nothing :
    ¬ ∃ ap : List ℚ, calculate_ap [] = some ap ∧ ap.length = 0 := by
  simp [calculate_ap]

/-- C10 (amended): for every NON-EMPTY input `p`, `calculate_ap` returns a
freshly built curve of exactly the same length as `p`; the input itself is
only read (all values in the embedding are immutable, and the accumulator
`ap` is a local list). -/
theorem calculate_ap_length (p : List ℚ) (hp : p ≠ []) :
    ∃ ap, calculate_ap p = some ap ∧ ap.length = p.length := by
  obtain ⟨p0, rest, rfl⟩ : ∃ p0 rest, p = p0 :: rest := by
    cases p with
    | nil => exact absurd rfl hp
    | cons a l => exact ⟨a, l, rfl⟩
  simpa using calculate_ap_length_aux p0 rest

/-- Witness for C10's amended theorem at `p = [1, 1/2]`. -/
theorem calculate_ap_length_witness :
    ∃ ap, calculate_ap [1, 1/2] = some ap ∧
      ap.length = ([1, 1/2] : List ℚ).length :=
  calculate_ap_length [1, 1/2] (by simp)

theorem sum_eq_count_one (l : List ℚ) (h : ∀ x ∈ l, x = 0 ∨ x = 1) :
    l.sum = (l.count 1 : ℚ) := by
  induction l with
  | nil => simp
  | cons a l ih =>
    have ha := h a (List.mem_cons_self a l)
    have hl := ih (fun x hx => h x (List.mem_cons_of_mem a hx))
    rcases ha with ha | ha <;>
      simp [List.count_cons, ha, hl, add_comm]

theorem take_sum_le_sum (l : List ℚ) (h : ∀ x ∈ l, 0 ≤ x) (j : ℕ) :
    (l.take j).sum ≤ l.sum := by
  conv_rhs => rw [← List.take_append_drop j l]
  rw [List.sum_append]
  have hd : 0 ≤ (l.drop j).sum :=
    List.sum_nonneg (fun x hx => h x (List.drop_subset j l hx))
  linarith

theorem take_sum_mono (l : List ℚ) (h : ∀ x ∈ l, 0 ≤ x) (k1 k2 : ℕ)
    (hk : k1 ≤ k2) : (l.take k1).sum ≤ (l.take k2).sum := by
  have h2 : ∀ x ∈ l.take k2, 0 ≤ x := fun x hx => h x (List.take_subset k2 l hx)
  have := take_sum_le_sum (l.take k2) h2 k1
  rwa [List.take_take, min_eq_left hk] at this

/-- C5: for 0/1 relevance labels and every valid `k` (`1 ≤ k ≤ length`),
precision@k equals (number of relevant entries among the first `k`) / `k`,
and the value lies in `[0, 1]`. -/
theorem precision_at_k_count_and_bounds (labels : List ℚ) (k : ℕ)
    (h01 : ∀ x ∈ labels, x = 0 ∨ x = 1) (hk1 : 1 ≤ k) (hk2 : k ≤ labels.length) :
    precision_at_k labels k = ((labels.take k).count 1 : ℚ) / (k : ℚ) ∧
    0 ≤ precision_at_k labels k ∧ precision_at_k labels k ≤ 1 := by
  have h01t : ∀ x ∈ labels.take k, x = 0 ∨ x = 1 :=
    fun x hx => h01 x (List.take_subset k labels hx)
  have hnn : ∀ x ∈ labels.take k, 0 ≤ x := by
    intro x hx; rcases h01t x hx with h | h <;> simp [h]
  have hle1 : ∀ x ∈ labels.take k, x ≤ 1 := by
    intro x hx; rcases h01t x hx with h | h <;> simp [h]
  have hkpos : (0 : ℚ) < (k : ℚ) := by exact_mod_cast hk1
  refine ⟨?_, ?_, ?_⟩
  · rw [precision_at_k, sum_eq_count_one _ h01t]
  · exact div_nonneg (List.sum_nonneg hnn) (le_of_lt hkpos)
  · rw [precision_at_k, div_le_one hkpos]
    have hs := List.sum_le_card_nsmul (labels.take k) 1 hle1
    rw [nsmul_eq_mul, mul_one] at hs
    have hlen : ((labels.take k).length : ℚ) ≤ (k : ℚ) := by
      rw [List.length_take]
      exact_mod_cast Nat.cast_le.mpr (min_le_left k labels.length)
    linarith

/-- Witness for C5 at `labels = [1, 0]`, `k = 2`: precision is 1/2. -/
theorem precision_at_k_count_and_bounds_witness :
    precision_at_k [1, 0] 2 = (([1, (0 : ℚ)].take 2).count 1 : ℚ) / ((2 : ℕ) : ℚ) ∧
    0 ≤ precision_at_k [1, 0] 2 ∧ precision_at_k [1, 0] 2 ≤ 1 :=
  precision_at_k_count_and_bounds [1, 0] 2 (by intro x hx; simp at hx; rcases hx with h | h <;> simp [h])
    (by norm_num) (by simp)

/-- C6: for a fixed ranked list with 0/1 labels whose total label sum (the
`total_relevant` the code divides by) is positive, recall@k is
non-decreasing in `k` over valid cutoffs. -/
theorem recall_at_k_mono (labels : List ℚ) (k1 k2 : ℕ)
    (h01 : ∀ x ∈ labels, x = 0 ∨ x = 1) (hpos : 0 < labels.sum)
    (hk : k1 ≤ k2) (hk2 : k2 ≤ labels.length) :
    recall_at_k labels k1 ≤ recall_at_k labels k2 := by
  have hnn : ∀ x ∈ labels, 0 ≤ x := by
    intro x hx; rcases h01 x hx with h | h <;> simp [h]
  rw [recall_at_k, recall_at_k]
  exact (div_le_div_iff_of_pos_right hpos).mpr (take_sum_mono labels hnn k1 k2 hk)

/-- Witness for C6 at `labels = [1, 0, 1]`, `k1 = 1`, `k2 = 3`. -/
theorem recall_at_k_mono_witness :
    recall_at_k [1, 0, 1] 1 ≤ recall_at_k [1, 0, 1] 3 :=
  recall_at_k_mono [1, 0, 1] 1 3
    (by intro x hx; simp at hx; rcases hx with h | h | h <;> simp [h])
    (by norm_num) (by norm_num) (by simp)

/-- C8: when all of the (positively many) relevant items occur before rank
`k` — every index carrying label 1 is `< k` — recall@k is exactly 1. -/
theorem recall_at_k_reaches_one (labels : List ℚ) (k : ℕ)
    (h01 : ∀ x ∈ labels, x = 0 ∨ x = 1) (hpos : 0 < labels.sum)
    (hk : k ≤ labels.length)
    (hlast : ∀ j, (hj : j < labels.length) → labels[j] = 1 → j < k) :
    recall_at_k labels k = 1 := by
  have hdrop : ∀ x ∈ labels.drop k, x = 0 := by
    intro x hx
    obtain ⟨i, hi, hx⟩ := List.mem_iff_getElem.mp hx
    rw [List.getElem_drop] at hx
    have hki : k + i < labels.length := by
      have := hi; rw [List.length_drop] at this; omega
    rcases h01 labels[k + i] (List.getElem_mem hki) with h0 | h1
    · rw [← hx]; exact h0
    · have := hlast (k + i) hki h1
      omega
  have hdsum : (labels.drop k).sum = 0 := List.sum_eq_zero hdrop
  have hsplit : labels.sum = (labels.take k).sum := by
    conv_lhs => rw [← List.take_append_drop k labels]
    rw [List.sum_append, hdsum, add_zero]
  rw [recall_at_k, ← hsplit, div_self (ne_of_gt hpos)]

/-- Witness for C8 at `labels = [1, 0]`, `k = 1`: the single relevant item
sits at rank 1, and recall@1 is already 1. -/
theorem recall_at_k_reaches_one_witness : recall_at_k [1, 0] 1 = 1 :=
  recall_at_k_reaches_one [1, 0] 1
    (by intro x hx; simp at hx; rcases hx with h | h <;> simp [h])
    (by norm_num) (by norm_num)
    (by
      intro j hj h1
      simp at hj
      interval_cases j <;> simp_all)

/-- C2 counterexample: at `k = 2` on the one-element list `[1]` (so
`k > length`) the code silently truncates the slice and returns the
ordinary values 1/2 for precision and 1 for recall; the computation (like
the source, which has no bounds check at all) signals no
precondition-violation error. -/
theorem precision_recall_no_error_on_large_k :
    precision_at_k [1] 2 = 1 / 2 ∧ recall_at_k [1] 2 = 1 := by
  constructor <;>
    norm_num [precision_at_k, recall_at_k, List.take_succ_cons]

/-- C2 (amended): for every `k` at least the list length the slice
`[:k]` keeps the whole list, so precision@k is (full label sum)/k and
recall@k is the full-list recall — silent truncation instead of an
error. -/
theorem precision_recall_truncate (labels : List ℚ) (k : ℕ)
    (hk : labels.length ≤ k) :
    precision_at_k labels k = labels.sum / (k : ℚ) ∧
    recall_at_k labels k = labels.sum / labels.sum := by
  rw [precision_at_k, recall_at_k, List.take_of_length_le hk]
  exact ⟨rfl, rfl⟩

/-- Witness for C2's amended theorem at `labels = [1]`, `k = 2`. -/
theorem precision_recall_truncate_witness :
    precision_at_k [1] 2 = ([(1 : ℚ)] : List ℚ).sum / ((2 : ℕ) : ℚ) ∧
    recall_at_k [1] 2 = ([(1 : ℚ)] : List ℚ).sum / ([(1 : ℚ)] : List ℚ).sum :=
  precision_recall_truncate [1] 2 (by simp)

/-- C4: the code divides by `total_relevant = df["label"].sum()`
unconditionally.  On the one-row dataframe with label 0 the denominator is
0 and the division is still performed — Python/pandas produces NaN, and
the rational embedding produces the junk value 0 of division by zero; in
neither case is an undefined-result condition signalled distinctly from a
valid 0.0 recall. -/
theorem recall_at_k_zero_total_relevant :
    ([(0 : ℚ)] : List ℚ).sum = 0 ∧ recall_at_k [0] 1 = 0 := by
  constructor <;> norm_num [recall_at_k, List.take_succ_cons]

/-- C3: the per-user loop never reads `user` in its body.  On a dataframe
where user "a"'s own rows carry labels `[1]` and user "b"'s carry `[0]`
(different ranked lists), the table built by the loop assigns both users
the identical curve computed from the GLOBAL dataframe. -/
theorem precision_curves_ignore_user :
    userLabels [⟨"a", 1⟩, ⟨"b", 0⟩] "a" ≠ userLabels [⟨"a", 1⟩, ⟨"b", 0⟩] "b" ∧
    precision_at_k_table ["a", "b"] [⟨"a", 1⟩, ⟨"b", 0⟩] =
      [("a", precision_curve [⟨"a", 1⟩, ⟨"b", 0⟩]),
       ("b", precision_curve [⟨"a", 1⟩, ⟨"b", 0⟩])] := by
  constructor
  · have ha : userLabels [⟨"a", 1⟩, ⟨"b", 0⟩] "a" = [1] := rfl
    have hb : userLabels [⟨"a", 1⟩, ⟨"b", 0⟩] "b" = [0] := rfl
    rw [ha, hb]
    intro h
    exact one_ne_zero (List.head_eq_of_cons_eq h)
  · rfl

theorem apSum_eq_map_sum (ap_at_k : String → List ℚ) (k : ℕ)
    (users : List String) (h : ∀ u ∈ users, k < (ap_at_k u).length) :
    apSum ap_at_k k users =
      some ((users.map (fun u => (ap_at_k u).getD k 0)).sum) := by
  induction users with
  | nil => simp [apSum]
  | cons u us ih =>
    have hu : k < (ap_at_k u).length := h u (List.mem_cons_self u us)
    have hus : ∀ v ∈ us, k < (ap_at_k v).length :=
      fun v hv => h v (List.mem_cons_of_mem u hv)
    have hget : (ap_at_k u)[k]? = some ((ap_at_k u).getD k 0) := by
      rw [List.getElem?_eq_getElem hu, List.getD_eq_getElem _ _ hu]
    rw [apSum, hget, ih hus]
    simp

/-- C7: `map_at_k` is invariant under permutation of the user list — for
any assignment of AP curves long enough for the cutoff, reordering the
users leaves the computed unweighted mean unchanged. -/
theorem map_at_k_perm_invariant (users1 users2 : List String)
    (ap_at_k : String → List ℚ) (k : ℕ) (hperm : users1.Perm users2)
    (h : ∀ u ∈ users1, k < (ap_at_k u).length) :
    map_at_k users1 ap_at_k k = map_at_k users2 ap_at_k k := by
  have h2 : ∀ u ∈ users2, k < (ap_at_k u).length :=
    fun u hu => h u (hperm.mem_iff.mpr hu)
  rw [map_at_k, map_at_k, apSum_eq_map_sum _ _ _ h, apSum_eq_map_sum _ _ _ h2]
  have hsum : (users1.map (fun u => (ap_at_k u).getD k 0)).sum =
      (users2.map (fun u => (ap_at_k u).getD k 0)).sum :=
    (hperm.map _).sum_eq
  rw [hsum, hperm.length_eq]

/-- Witness for C7: swapping two users (one AP curve `[722/1000]`, one
`[1/2]`) leaves MAP at index 0 unchanged. -/
theorem map_at_k_perm_invariant_witness :
    (["a", "b"] : List String).Perm ["b", "a"] ∧
    map_at_k ["a", "b"] (fun u => if u = "a" then [722/1000] else [1/2]) 0 =
      map_at_k ["b", "a"] (fun u => if u = "a" then [722/1000] else [1/2]) 0 :=
  ⟨by decide,
    map_at_k_perm_invariant ["a", "b"] ["b", "a"]
      (fun u => if u = "a" then [722/1000] else [1/2]) 0 (by decide)
      (by intro u hu; fin_cases hu <;> simp)⟩
